import Mathlib

/-!
Verification development for the skaffold Dockerfile dependency resolver
(`pkg/skaffold/docker/parse.go`).

The Go source is shallowly embedded: parsed Dockerfile instructions become
the `Node` structure, external collaborators (os.Stat, filepath.Glob,
filepath.Rel, filepath.Abs, the Dockerfile parser, the shell-word lexer,
the dockerignore reader, the pattern matcher and the directory walker) are
abstracted as oracle functions gathered in an `Env` structure, and each Go
function of the file becomes a Lean function of the same name.  The image
lookup (`RetrieveImage`, a swappable package-level variable in Go) is
passed as an explicit function argument.
-/

set_option autoImplicit false

namespace SkaffoldDocker

/-! ## Small string helpers

Go's `strings` and `path/filepath` standard-library functions used by
`parse.go` are modelled over the character list of a `String`, keeping every
definition structurally recursive so that concrete values evaluate by
`decide`/`rfl`.
-/

/-- Models `strings.HasPrefix pat s` (is `p` a prefix of `s`). -/
def strStartsWith (s p : String) : Bool :=
  p.data.isPrefixOf s.data

/-- ASCII lowering of one character, as Go's `strings.ToLower` does for the
ASCII range (the stage names and image names in the claims are ASCII). -/
def strToLower (s : String) : String :=
  ⟨s.data.map Char.toLower⟩

/-- Models `strings.Join l sep` for `sep = "\n"` and friends. -/
def strJoin (sep : String) : List String → String
  | [] => ""
  | [x] => x
  | x :: y :: rest => x ++ sep ++ strJoin sep (y :: rest)

/-- Character-level worker for `splitEq`. -/
def splitEqList : List Char → List (List Char)
  | [] => [[]]
  | c :: rest =>
    let r := splitEqList rest
    if c = '=' then [] :: r
    else (c :: r.headD []) :: r.tail

/-- Models `strings.Split s "="`: split on every `=`, preserving empty
fields; the result is never empty. -/
def splitEq (s : String) : List String :=
  (splitEqList s.data).map (fun l => ⟨l⟩)

/-- Models `filepath.Join a b`.  Go additionally runs `filepath.Clean` on
the result; no claim depends on the cleaning, so the plain separator join is
used (`filepath.Clean` itself appears separately as the oracle
`Env.clean`). -/
def joinP (a b : String) : String :=
  a ++ "/" ++ b

/-- Models `filepath.IsAbs` on Unix: the path starts with a slash. -/
def isAbsP (s : String) : Bool :=
  strStartsWith s "/"

/-! ## Set-as-list helpers

Go's `map[string]bool` used as a set is modelled as a duplicate-free
`List String`; insertion order is fixed (append), which is harmless because
every map in `parse.go` is either sorted or treated as a set before being
returned. -/

/-- Insertion into a list-modelled string set (`m[k] = true`). -/
def insertSet (l : List String) (x : String) : List String :=
  if x ∈ l then l else l ++ [x]

/-- Insertion sort step used by `sortStrings`. -/
def insSorted (x : String) : List String → List String
  | [] => [x]
  | y :: ys => if x ≤ y then x :: y :: ys else y :: insSorted x ys

/-- Models `sort.Strings`. -/
def sortStrings (l : List String) : List String :=
  l.foldr insSorted []

theorem mem_insertSet {l : List String} {x y : String} :
    y ∈ insertSet l x ↔ y ∈ l ∨ y = x := by
  unfold insertSet
  split
  · constructor
    · exact Or.inl
    · rintro (h | rfl) <;> assumption
  · simp [or_comm]

theorem nodup_insertSet {l : List String} (h : l.Nodup) (x : String) :
    (insertSet l x).Nodup := by
  unfold insertSet
  split
  · exact h
  · simpa [List.nodup_append] using ⟨h, by assumption⟩

theorem nodup_foldl_insertSet {acc : List String} (h : acc.Nodup) (xs : List String) :
    (xs.foldl insertSet acc).Nodup := by
  induction xs generalizing acc with
  | nil => exact h
  | cons x xs ih => exact ih (nodup_insertSet h x)

theorem perm_insSorted (x : String) (l : List String) :
    List.Perm (insSorted x l) (x :: l) := by
  induction l with
  | nil => exact List.Perm.refl _
  | cons y ys ih =>
    unfold insSorted
    split
    · exact List.Perm.refl _
    · exact (List.Perm.cons y ih).trans (List.Perm.swap x y ys)

theorem perm_sortStrings (l : List String) : List.Perm (sortStrings l) l := by
  induction l with
  | nil => exact List.Perm.refl _
  | cons x xs ih =>
    exact (perm_insSorted x (sortStrings xs)).trans (List.Perm.cons x ih)

theorem mem_sortStrings {l : List String} {x : String} :
    x ∈ sortStrings l ↔ x ∈ l :=
  (perm_sortStrings l).mem_iff

theorem nodup_sortStrings {l : List String} (h : l.Nodup) :
    (sortStrings l).Nodup :=
  ((perm_sortStrings l).nodup_iff).mpr h

theorem sorted_insSorted {x : String} {l : List String}
    (h : l.Sorted (· ≤ ·)) : (insSorted x l).Sorted (· ≤ ·) := by
  induction l with
  | nil => simp [insSorted]
  | cons y ys ih =>
    rw [List.sorted_cons] at h
    unfold insSorted
    split
    · next hxy =>
      refine List.sorted_cons.mpr ⟨?_, List.sorted_cons.mpr h⟩
      intro b hb
      rcases List.mem_cons.mp hb with rfl | hb
      · exact hxy
      · exact le_trans hxy (h.1 b hb)
    · next hxy =>
      have hyx : y ≤ x := le_of_not_le hxy
      refine List.sorted_cons.mpr ⟨?_, ih h.2⟩
      intro b hb
      rcases List.mem_cons.mp ((perm_insSorted x ys).mem_iff.mp hb) with rfl | hb
      · exact hyx
      · exact h.1 b hb

theorem sorted_sortStrings (l : List String) :
    (sortStrings l).Sorted (· ≤ ·) := by
  induction l with
  | nil => simp [sortStrings]
  | cons x xs ih => exact sorted_insSorted ih

/-! ## Instructions

`parser.Node` of the buildkit Dockerfile parser, as used by `parse.go`: a
top-level instruction node carries the command name in `value`, the
argument token chain (`node.Next`, `node.Next.Next`, ...) as `next`, and
the flag strings in `flags`.  Argument nodes of the chain carry no flags,
which is why `next` is a plain list of strings. -/
structure Node where
  value : String
  next : List String
  flags : List String
  deriving DecidableEq, Repr

/-- Models the buildkit `command` package constants used by `parse.go`. -/
def cmdAdd : String := "add"
def cmdArg : String := "arg"
def cmdCopy : String := "copy"
def cmdEnv : String := "env"
def cmdFrom : String := "from"

/-! ## Variable substitution (`expandBuildArgs`, parse.go lines 56-91) -/

/-- Modelled from the spec: `util.Expand` (package `pkg/skaffold/util`, not
present under `src/`) replaces every occurrence of the variable reference —
both the `$\x7bkey\x7d` and the `$key` spelling — by the resolved value,
with no word-boundary check.  Character-level fueled worker; the fuel is
the length of the text, which one replacement step never increases the
remaining scan below. -/
def replaceChars (pat rep : List Char) : Nat → List Char → List Char
  | 0, s => s
  | _ + 1, [] => []
  | fuel + 1, c :: cs =>
    if pat ≠ [] ∧ pat.isPrefixOf (c :: cs) then
      rep ++ replaceChars pat rep fuel (List.drop (pat.length - 1) cs)
    else
      c :: replaceChars pat rep fuel cs

/-- Modelled from the spec: `util.Expand text key value` (see
`replaceChars`). -/
def expandVar (text key value : String) : String :=
  let s1 := replaceChars ("$\x7b" ++ key ++ "\x7d").data value.data text.data.length text.data
  ⟨replaceChars ("$" ++ key).data value.data s1.length s1⟩

/-- The substitution pass applied to one instruction: parse.go line 85
walks the token chain starting at the instruction node itself, so both the
command token and every argument token are rewritten; flags are not. -/
def expandNode (key value : String) (n : Node) : Node :=
  { value := expandVar n.value key value
    next := n.next.map (fun t => expandVar t key value)
    flags := n.flags }

/-- The build arg's key of an ARG node: `strings.Split(node.Next.Value, "=")[0]`
(parse.go lines 63-64 and 80). -/
def argKey (n : Node) : String :=
  (splitEq (n.next.headD "")).headD ""

/-- Inner loop of `expandBuildArgs` (parse.go lines 78-88): substitute into
every following instruction, stopping at a redeclaration of the same key
(the redeclared ARG node itself is not substituted into). -/
def substUntilRedecl (key value : String) : List Node → List Node
  | [] => []
  | n :: rest =>
    if n.value == cmdArg && argKey n == key then n :: rest
    else expandNode key value n :: substUntilRedecl key value rest

theorem substUntilRedecl_length (key value : String) (l : List Node) :
    (substUntilRedecl key value l).length = l.length := by
  induction l with
  | nil => rfl
  | cons n rest ih =>
    unfold substUntilRedecl
    split <;> simp [ih]

/-- The inline default of an ARG declaration: `keyValue[1]` when the split
has a second field, empty otherwise (parse.go lines 74-76). -/
def argDefault (keyValue : List String) : String :=
  if keyValue.length > 1 then keyValue.getD 1 "" else ""

/-- The resolved value of a build argument (parse.go lines 66-76): a
caller-supplied value is rendered as a template, otherwise the inline
default (or empty) is used. -/
def argValueE (evalT : String → Except String String)
    (bA : String → Option String) (key : String) (keyValue : List String) :
    Except String String :=
  match bA key with
  | some t => evalT t
  | none => .ok (argDefault keyValue)

/-- Outer loop of `expandBuildArgs` (parse.go lines 57-89), iterating over
the in-place mutated instruction list; the fuel is the number of remaining
positions, which `substUntilRedecl` preserves, so starting the fuel at the
list length (see `expandBuildArgs`) it never runs out. -/
def expandBuildArgsAux (evalT : String → Except String String)
    (bA : String → Option String) : Nat → List Node → Except String (List Node)
  | _, [] => .ok []
  | 0, l => .ok l
  | fuel + 1, n :: rest =>
    if n.value == cmdArg then
      match argValueE evalT bA (argKey n) (splitEq (n.next.headD "")) with
      | .error _ => .error ("unable to get value for build arg: " ++ argKey n)
      | .ok v =>
        match expandBuildArgsAux evalT bA fuel (substUntilRedecl (argKey n) v rest) with
        | .error e => .error e
        | .ok rest2 => .ok (n :: rest2)
    else
      match expandBuildArgsAux evalT bA fuel rest with
      | .error e => .error e
      | .ok rest2 => .ok (n :: rest2)

/-- Models `expandBuildArgs` (parse.go lines 56-91); `evalT` is the oracle
for `evaluateBuildArgsValue` (template rendering, modelled from the spec
since `util.ParseEnvTemplate`/`ExecuteEnvTemplate` are not under `src/`),
`bA` is the caller's build-argument map where `none` covers both an absent
key and a nil value. -/
def expandBuildArgs (evalT : String → Except String String)
    (bA : String → Option String) (nodes : List Node) : Except String (List Node) :=
  expandBuildArgsAux evalT bA nodes.length nodes

/-! ## Base-image trigger resolution (`onbuildInstructions`, parse.go 117-156) -/

/-- Models the Go struct `from` (parse.go lines 39-42). -/
structure FromI where
  image : String
  alias2 : String
  deriving DecidableEq, Repr

/-- Models `fromInstruction` (parse.go lines 105-115): the image is the
first argument token; an alias is present when the second token is `as`
(case-insensitively) and a third token follows; the alias is stored
lowered. -/
def fromInstruction (n : Node) : FromI :=
  let a : String :=
    match n.next with
    | _ :: w :: rest => if strToLower w == "as" && rest ≠ [] then rest.headD "" else ""
    | _ => ""
  { image := n.next.headD "", alias2 := strToLower a }

/-- Models `fromInstructions` (parse.go lines 93-103). -/
def fromInstructions (nodes : List Node) : List FromI :=
  (nodes.filter (fun n => n.value == cmdFrom)).map fromInstruction

/-- The part of `v1.ConfigFile` that `parse.go` reads:
`img.Config.OnBuild`. -/
structure ImgCfg where
  onBuild : List String
  deriving DecidableEq, Repr

/-- The loop of `onbuildInstructions` (parse.go lines 120-148), instrumented:
the first component is the accumulated ONBUILD trigger strings, the second
records, in order, every image reference for which `RetrieveImage` was
called.  `stages` is the alias set built so far (the current stage's alias
is inserted before its image is examined, exactly as in the source). -/
def collectOnbuild (retrieve : String → Except String ImgCfg)
    (stages : List String) : List FromI → List String × List String
  | [] => ([], [])
  | f :: rest =>
    let stages2 := strToLower f.alias2 :: stages
    if strToLower f.image == "scratch" then
      collectOnbuild retrieve stages2 rest
    else if strToLower f.image ∈ stages2 then
      collectOnbuild retrieve stages2 rest
    else
      let r := collectOnbuild retrieve stages2 rest
      match retrieve f.image with
      | .error _ => (r.1, f.image :: r.2)
      | .ok img =>
        (if img.onBuild.length > 0 then img.onBuild ++ r.1 else r.1, f.image :: r.2)

/-- The image references looked up externally while resolving ONBUILD
triggers for `nodes`. -/
def onbuildLookups (retrieve : String → Except String ImgCfg)
    (nodes : List Node) : List String :=
  (collectOnbuild retrieve [] (fromInstructions nodes)).2

/-- Models `onbuildInstructions` (parse.go lines 117-156): collect the
trigger strings of every genuinely external base image, join them with
newlines and hand them to the external Dockerfile parser
(`parseInstr` oracle); only that parse can fail. -/
def onbuildInstructions (retrieve : String → Except String ImgCfg)
    (parseInstr : String → Except String (List Node))
    (nodes : List Node) : Except String (List Node) :=
  parseInstr (strJoin "\n" (collectOnbuild retrieve [] (fromInstructions nodes)).1)

/-! ## Copy/add extraction (`processCopy` and `copiedFiles`, parse.go 158-182, 399-444) -/

/-- Models `hasMultiStageFlag` (parse.go lines 437-444). -/
def hasMultiStageFlag (flags : List String) : Bool :=
  flags.any (fun f => strStartsWith f "--from=")

/-- The loop of `processCopy` (parse.go lines 403-424) over the token
chain.  `pw` is the oracle for `processShellWord` (the buildkit shell
lexer, external).  The last token is the destination and is skipped; a
token followed by a `#` comment token ends the scan; a shell-word failure
aborts; the stage-source flag makes the whole instruction contribute
nothing (`return nil, nil`); an expanded source starting with `http://` or
`https://` is skipped.  After the first iteration the walk continues on
argument-chain nodes, which carry no flags. -/
def processCopyAux (pw : String → List (String × String) → Except String String)
    (envs : List (String × String)) (flags : List String) :
    List String → Except String (List String)
  | [] => .ok []
  | [_] => .ok []
  | a :: b :: rest =>
    if strStartsWith b "#" then .ok []
    else
      match pw a envs with
      | .error e => .error e
      | .ok src =>
        if hasMultiStageFlag flags then .ok []
        else
          match processCopyAux pw envs [] (b :: rest) with
          | .error e => .error e
          | .ok tail =>
            if !(strStartsWith src "http://") && !(strStartsWith src "https://") then
              .ok (src :: tail)
            else
              .ok tail

/-- Models `processCopy` (parse.go lines 399-427). -/
def processCopy (pw : String → List (String × String) → Except String String)
    (n : Node) (envs : List (String × String)) : Except String (List String) :=
  processCopyAux pw envs n.flags n.next

/-- One `envs[k] = v` map update, modelled on the association list. -/
def envSet (m : List (String × String)) (k v : String) : List (String × String) :=
  if m.any (fun p => p.1 == k) then
    m.map (fun p => if p.1 == k then (k, v) else p)
  else m ++ [(k, v)]

/-- The ENV loop of `copiedFiles` (parse.go lines 175-177): one ENV
instruction assigns consecutive token pairs. -/
def applyEnvPairs (m : List (String × String)) : List String → List (String × String)
  | k :: v :: rest => applyEnvPairs (envSet m k v) rest
  | _ => m

/-- Models `copiedFiles` (parse.go lines 158-182): walk the instruction
stream, collecting one dependency group per ADD/COPY instruction with a
nonempty result and threading the environment map through ENV
instructions. -/
def copiedFiles (pw : String → List (String × String) → Except String String)
    (envs : List (String × String)) : List Node → Except String (List (List String))
  | [] => .ok []
  | n :: rest =>
    if n.value == cmdAdd || n.value == cmdCopy then
      match processCopy pw n envs with
      | .error e => .error e
      | .ok files =>
        match copiedFiles pw envs rest with
        | .error e => .error e
        | .ok groups => .ok (if files.length > 0 then files :: groups else groups)
    else if n.value == cmdEnv then
      copiedFiles pw (applyEnvPairs envs n.next) rest
    else
      copiedFiles pw envs rest

/-! ## The external world

All I/O and external-library calls made by `parse.go` are oracles gathered
in `Env`.  Each field documents the call it stands for. -/

/-- Result mode of `os.Stat` as used by `WalkWorkspace` (parse.go 344). -/
inductive FMode where
  | dir
  | regular
  | other
  deriving DecidableEq, Repr

/-- Outcome of reading `<workspace>/.dockerignore` (parse.go 288-301):
missing file (not an error), read failure, or the pattern lines. -/
inductive IgnoreFileRes where
  | absent
  | readError (e : String)
  | content (lines : List String)

/-- A directory entry handed to the `godirwalk` callback: its full path,
whether it is a directory, and (for directories) its children. -/
inductive DTree where
  | node (path : String) (isDir : Bool) (children : List DTree)

/-- The external collaborators of `parse.go`. -/
structure Env where
  /-- `os.Stat p` — `none` is a stat error, otherwise the file mode. -/
  statMode : String → Option FMode
  /-- `filepath.Glob p` — `none` is `ErrBadPattern`; the empty list is the
  nil slice returned when nothing matches. -/
  glob : String → Option (List String)
  /-- `filepath.Rel base target` — `none` is an error. -/
  rel : String → String → Option String
  /-- `filepath.Abs p` — `none` is an error. -/
  absPath : String → Option String
  /-- `filepath.Clean`. -/
  clean : String → String
  /-- `os.Open` followed by `parser.Parse` on the Dockerfile at the given
  absolute path (parse.go 185-196). -/
  openParse : String → Except String (List Node)
  /-- `parser.Parse` over the joined ONBUILD trigger strings
  (parse.go 150-153). -/
  parseInstr : String → Except String (List Node)
  /-- Modelled from the spec: template rendering of a build-argument value
  (`evaluateBuildArgsValue` via `util.ParseEnvTemplate` and
  `util.ExecuteEnvTemplate`, which are not under `src/`). -/
  evalTemplate : String → Except String String
  /-- `processShellWord`: the buildkit shell lexer applied to one word
  under the current environment pairs (parse.go 429-435). -/
  processWord : String → List (String × String) → Except String String
  /-- Reading the ignore file at the given path (parse.go 288-301). -/
  ignoreFile : String → IgnoreFileRes
  /-- `fileutils.NewPatternMatcher` — an error, or a matcher whose own
  calls can also fail (`pExclude.Matches`). -/
  newMatcher : List String → Except String (String → Except String Bool)
  /-- The forest of entries `godirwalk.Walk` would visit below the given
  directory — `none`-style walk I/O failure is an `error`. -/
  walkTree : String → Except String (List DTree)

/-! ## Path expansion (`expandPaths`, parse.go 216-260) -/

/-- The error produced at parse.go line 249; `fmt.Errorf("file pattern %s
must match at least one file", files)` prints the group slice in brackets. -/
def mustMatchErr (files : List String) : String :=
  "file pattern [" ++ strJoin " " files ++ "] must match at least one file"

/-- The inner loop over one glob's matches (parse.go 237-244): convert each
match to a workspace-relative path and record it. -/
def relAll (env : Env) (ws : String) (acc : List String) :
    List String → Except String (List String)
  | [] => .ok acc
  | f :: rest =>
    match env.rel ws f with
    | none => .error ("getting relative path of " ++ f)
    | some r => relAll env ws (insertSet acc r) rest

/-- One token of a dependency group (parse.go 221-246): a literal hit
records the token itself; otherwise the token is globbed — a bad pattern
aborts, no matches leaves the group unsatisfied, and matches are recorded
relative to the workspace. -/
def processToken (env : Env) (ws : String) (st : List String × Bool)
    (p : String) : Except String (List String × Bool) :=
  if (env.statMode (joinP ws p)).isSome then
    .ok (insertSet st.1 p, true)
  else
    match env.glob (joinP ws p) with
    | none => .error "invalid glob pattern"
    | some [] => .ok st
    | some (f :: fs) =>
      match relAll env ws st.1 (f :: fs) with
      | .error e => .error e
      | .ok s => .ok (s, true)

/-- The token loop over one dependency group (parse.go 221-246). -/
def processGroup (env : Env) (ws : String) (st : List String × Bool) :
    List String → Except String (List String × Bool)
  | [] => .ok st
  | p :: ps =>
    match processToken env ws st p with
    | .error e => .error e
    | .ok st2 => processGroup env ws st2 ps

/-- Models `expandPaths` (parse.go 216-260) with the accumulated path set
made explicit; a group none of whose tokens matched anything aborts with
`mustMatchErr`. -/
def expandPaths (env : Env) (ws : String) :
    List (List String) → List String → Except String (List String)
  | [], acc => .ok acc
  | g :: rest, acc =>
    match processGroup env ws (acc, false) g with
    | .error e => .error e
    | .ok (s, matchedOne) =>
      if matchedOne then expandPaths env ws rest s
      else .error (mustMatchErr g)

/-- Whether one token of a dependency group matches at least one file on
disk, either literally or as a glob pattern. -/
def tokenMatches (env : Env) (ws : String) (p : String) : Bool :=
  (env.statMode (joinP ws p)).isSome ||
    (match env.glob (joinP ws p) with
     | some (_ :: _) => true
     | _ => false)

/-! ## Dockerfile reading (`readDockerfile`, parse.go 184-214) -/

/-- Models `readDockerfile` (parse.go 184-214): parse the Dockerfile,
substitute build arguments in place, resolve ONBUILD triggers, extract the
copied file groups from the triggers followed by the Dockerfile's own
instructions, and expand the groups against the workspace. -/
def readDockerfile (retrieve : String → Except String ImgCfg) (env : Env)
    (ws absDockerfilePath : String) (bA : String → Option String) :
    Except String (List String) :=
  match env.openParse absDockerfilePath with
  | .error e => .error e
  | .ok dockerfileLines =>
    match expandBuildArgs env.evalTemplate bA dockerfileLines with
    | .error e => .error e
    | .ok lines =>
      match onbuildInstructions retrieve env.parseInstr lines with
      | .error e => .error e
      | .ok instructions =>
        match copiedFiles env.processWord [] (instructions ++ lines) with
        | .error e => .error e
        | .ok copied => expandPaths env ws copied []

/-! ## Workspace walking (`WalkWorkspace`, parse.go 327-388) -/

/-- The `godirwalk` callback logic (parse.go 346-375) over the visited
forest: each entry's workspace-relative path is tested against the exclude
matcher; an ignored directory is pruned whole, an ignored file is dropped,
and surviving files are collected (directories themselves contribute no
entry). -/
def walkForest (env : Env) (ws : String)
    (pm : String → Except String Bool) : List DTree → Except String (List String)
  | [] => .ok []
  | .node p isDir children :: rest =>
    match env.rel ws p with
    | none => .error ("relative path error: " ++ p)
    | some relPath =>
      match pm relPath with
      | .error e => .error e
      | .ok ignored =>
        let here : Except String (List String) :=
          if isDir then
            if ignored then .ok [] else walkForest env ws pm children
          else
            if ignored then .ok [] else .ok [relPath]
        match here with
        | .error e => .error e
        | .ok hs =>
          match walkForest env ws pm rest with
          | .error e => .error e
          | .ok ms => .ok (hs ++ ms)

/-- One dependency of the `WalkWorkspace` loop (parse.go 335-386): clean
it, stat the workspace-joined path (a failure is a hard error), then either
walk the directory subtree, test the regular file against the excludes, or
silently ignore any other mode. -/
def walkOneDep (env : Env) (ws : String) (pm : String → Except String Bool)
    (acc : List String) (dep : String) : Except String (List String) :=
  match env.statMode (joinP ws (env.clean dep)) with
  | none => .error ("stating file " ++ joinP ws (env.clean dep))
  | some .dir =>
    match env.walkTree (joinP ws (env.clean dep)) with
    | .error e => .error e
    | .ok forest =>
      match walkForest env ws pm forest with
      | .error e => .error e
      | .ok fs => .ok (fs.foldl insertSet acc)
  | some .regular =>
    match pm (env.clean dep) with
    | .error e => .error e
    | .ok ignored => .ok (if ignored then acc else insertSet acc (env.clean dep))
  | some .other => .ok acc

/-- The dependency loop of `WalkWorkspace` (parse.go 335-386). -/
def walkDeps (env : Env) (ws : String) (pm : String → Except String Bool)
    (acc : List String) : List String → Except String (List String)
  | [] => .ok acc
  | d :: ds =>
    match walkOneDep env ws pm acc d with
    | .error e => .error e
    | .ok acc2 => walkDeps env ws pm acc2 ds

/-- Models `WalkWorkspace` (parse.go 327-388). -/
def WalkWorkspace (env : Env) (ws : String) (excludes deps : List String) :
    Except String (List String) :=
  match env.newMatcher excludes with
  | .error _ => .error "invalid exclude patterns"
  | .ok pm => walkDeps env ws pm [] deps

/-! ## Entry point (`GetDependencies`, parse.go 262-325) -/

/-- Models `NormalizeDockerfilePath` (parse.go 263-272): an absolute
dockerfile path is returned as-is; a relative one is joined to the context
unless it already starts with it, then made absolute. -/
def NormalizeDockerfilePath (env : Env) (context dockerfile : String) :
    Option String :=
  if isAbsP dockerfile then some dockerfile
  else env.absPath (if strStartsWith dockerfile context then dockerfile
                    else joinP context dockerfile)

/-- The tail of `GetDependencies` after the ignore patterns are known
(parse.go 303-324): walk the workspace, force-include the Dockerfile path
(the given relative path, or the normalized absolute one, parse.go
308-313), delete the `.dockerignore` entry (parse.go 315-316) and return
the sorted key list. -/
def getDepsFinish (env : Env) (ws dockerfilePath absD : String)
    (excludes deps : List String) : Except String (List String) :=
  match WalkWorkspace env ws excludes deps with
  | .error e => .error e
  | .ok files =>
    .ok (sortStrings
      ((insertSet files (if !(isAbsP dockerfilePath) then dockerfilePath else absD)).filter
        (fun f => f != ".dockerignore")))

/-- Models `GetDependencies` (parse.go 274-325): resolve the Dockerfile
path, read its dependencies, load the ignore patterns (an absent ignore
file yields the empty pattern list), and finish with `getDepsFinish`. -/
def GetDependencies (retrieve : String → Except String ImgCfg) (env : Env)
    (ws dockerfilePath : String) (bA : String → Option String) :
    Except String (List String) :=
  match NormalizeDockerfilePath env ws dockerfilePath with
  | none => .error "normalizing dockerfile path"
  | some absD =>
    match readDockerfile retrieve env ws absD bA with
    | .error e => .error e
    | .ok deps =>
      match env.ignoreFile (joinP ws ".dockerignore") with
      | .readError e => .error e
      | .absent => getDepsFinish env ws dockerfilePath absD [] deps
      | .content lns => getDepsFinish env ws dockerfilePath absD lns deps

/-! ## Concrete environments used by witnesses and counterexamples -/

/-- A benign world: the Dockerfile parses to no instructions, no ignore
file exists, every directory is empty and no pattern is excluded. -/
def envW : Env where
  statMode := fun _ => some FMode.regular
  glob := fun _ => some []
  rel := fun _ f => some f
  absPath := fun p => some ("/" ++ p)
  clean := fun p => p
  openParse := fun _ => .ok []
  parseInstr := fun _ => .ok []
  evalTemplate := fun t => .ok t
  processWord := fun w _ => .ok w
  ignoreFile := fun _ => IgnoreFileRes.absent
  newMatcher := fun _ => .ok (fun _ => .ok false)
  walkTree := fun _ => .error "no walk"

/-- An image lookup that always fails (no daemon reachable). -/
def retrieveFail : String → Except String ImgCfg :=
  fun _ => .error "getting docker client"

/-! ## Structure of a successful `GetDependencies` run -/

theorem walkOneDep_nodup {env : Env} {ws : String}
    {pm : String → Except String Bool} {acc : List String} {dep : String}
    {out : List String} (h : walkOneDep env ws pm acc dep = .ok out)
    (ha : acc.Nodup) : out.Nodup := by
  unfold walkOneDep at h
  split at h
  · exact Except.noConfusion h
  · split at h
    · exact Except.noConfusion h
    · split at h
      · exact Except.noConfusion h
      · cases h
        exact nodup_foldl_insertSet ha _
  · split at h
    · exact Except.noConfusion h
    · cases h
      split
      · exact ha
      · exact nodup_insertSet ha _
  · cases h
    exact ha

theorem walkDeps_nodup {env : Env} {ws : String}
    {pm : String → Except String Bool} {ds : List String} :
    ∀ {acc out : List String}, walkDeps env ws pm acc ds = .ok out →
      acc.Nodup → out.Nodup := by
  induction ds with
  | nil =>
    intro acc out h ha
    unfold walkDeps at h
    cases h
    exact ha
  | cons d ds ih =>
    intro acc out h ha
    unfold walkDeps at h
    split at h
    · exact Except.noConfusion h
    · next acc2 hw => exact ih h (walkOneDep_nodup hw ha)

theorem WalkWorkspace_nodup {env : Env} {ws : String}
    {excludes deps files : List String}
    (h : WalkWorkspace env ws excludes deps = .ok files) : files.Nodup := by
  unfold WalkWorkspace at h
  split at h
  · exact Except.noConfusion h
  · exact walkDeps_nodup h List.nodup_nil

/-- Every successful `GetDependencies` result is the sorted, filtered walk
set with the Dockerfile key force-inserted; when the given dockerfile path
is absolute, the normalized path that gets inserted is that very path. -/
theorem getDependencies_ok_shape {retrieve : String → Except String ImgCfg}
    {env : Env} {ws dp : String} {bA : String → Option String} {l : List String}
    (hok : GetDependencies retrieve env ws dp bA = .ok l) :
    ∃ files absD, files.Nodup ∧ (isAbsP dp = true → absD = dp) ∧
      l = sortStrings
        ((insertSet files (if !(isAbsP dp) then dp else absD)).filter
          (fun f => f != ".dockerignore")) := by
  unfold GetDependencies at hok
  split at hok
  · exact Except.noConfusion hok
  · next absD hN =>
    have habs : isAbsP dp = true → absD = dp := by
      intro hi
      unfold NormalizeDockerfilePath at hN
      rw [hi] at hN
      simp only [if_true] at hN
      exact (Option.some.injEq _ _ ▸ hN).symm
    split at hok
    · exact Except.noConfusion hok
    · split at hok
      · exact Except.noConfusion hok
      all_goals
        unfold getDepsFinish at hok
        split at hok
        next => exact Except.noConfusion hok
        next files hW =>
          cases hok
          exact ⟨files, absD, WalkWorkspace_nodup hW, habs, rfl⟩

/-! ## Claims C1, C2, C3 -/

/-- C1 (amended): in every resolution in which `GetDependencies` returns
without error, the Dockerfile's own path (the relative path as given, or
the normalized absolute path for an absolute argument — which
`NormalizeDockerfilePath` returns unchanged) is present in the returned
dependency list regardless of the ignore-pattern set, unless that path is
the literal string `.dockerignore`, whose force-exclusion (parse.go 316)
runs after the Dockerfile force-inclusion (parse.go 308-313). -/
theorem c1_dockerfile_always_present {retrieve : String → Except String ImgCfg}
    {env : Env} {ws dp : String} {bA : String → Option String} {l : List String}
    (hok : GetDependencies retrieve env ws dp bA = .ok l)
    (hne : dp ≠ ".dockerignore") : dp ∈ l := by
  obtain ⟨files, absD, -, habs, rfl⟩ := getDependencies_ok_shape hok
  rw [mem_sortStrings, List.mem_filter]
  refine ⟨?_, by simpa using hne⟩
  rw [mem_insertSet]
  right
  cases hi : isAbsP dp with
  | true => simp [habs hi]
  | false => simp

/-- C1 witness: a concrete successful resolution in which the relative
Dockerfile path is a member of the result. -/
theorem c1_witness : "Dockerfile" ∈ ["Dockerfile"] :=
  c1_dockerfile_always_present
    (show GetDependencies retrieveFail envW "ws" "Dockerfile" (fun _ => none)
        = .ok ["Dockerfile"] from rfl)
    (by decide)

/-- C1 counterexample: with the Dockerfile path given as `.dockerignore`
(an empty Dockerfile parsed from that file), the resolution succeeds and
the returned list does not contain the Dockerfile's own path: the
`.dockerignore` deletion at parse.go 316 removes the entry the Dockerfile
force-inclusion at parse.go 310 just added. -/
theorem c1_counterexample :
    GetDependencies retrieveFail envW "ws" ".dockerignore" (fun _ => none)
        = .ok [] ∧ ".dockerignore" ∉ ([] : List String) := by
  exact ⟨rfl, by decide⟩

/-- C2: the ignore-pattern file's own workspace-relative path
`.dockerignore` is never an element of a successfully returned dependency
list (parse.go 315-316 deletes it after all insertions). -/
theorem c2_dockerignore_never_present {retrieve : String → Except String ImgCfg}
    {env : Env} {ws dp : String} {bA : String → Option String} {l : List String}
    (hok : GetDependencies retrieve env ws dp bA = .ok l) :
    ".dockerignore" ∉ l := by
  obtain ⟨files, absD, -, -, rfl⟩ := getDependencies_ok_shape hok
  intro hmem
  rw [mem_sortStrings, List.mem_filter] at hmem
  simpa using hmem.2

/-- C2 witness: a concrete successful resolution, to which the theorem
applies. -/
theorem c2_witness : ".dockerignore" ∉ ["Dockerfile"] :=
  c2_dockerignore_never_present
    (show GetDependencies retrieveFail envW "ws" "Dockerfile" (fun _ => none)
        = .ok ["Dockerfile"] from rfl)

/-- C3 (amended): every successful `GetDependencies` result is sorted and
duplicate-free; however an absolute `dockerfilePath` argument is inserted
into the result in absolute form (parse.go 312), not normalized to a
workspace-relative path. -/
theorem c3_sorted_nodup_absolute {retrieve : String → Except String ImgCfg}
    {env : Env} {ws dp : String} {bA : String → Option String} {l : List String}
    (hok : GetDependencies retrieve env ws dp bA = .ok l) :
    l.Sorted (· ≤ ·) ∧ l.Nodup ∧ (isAbsP dp = true → dp ∈ l) := by
  obtain ⟨files, absD, hnd, habs, rfl⟩ := getDependencies_ok_shape hok
  refine ⟨sorted_sortStrings _,
    nodup_sortStrings (List.Nodup.filter _ (nodup_insertSet hnd _)), ?_⟩
  intro hi
  rw [mem_sortStrings, List.mem_filter]
  constructor
  · rw [mem_insertSet]
    right
    simp [habs hi, hi]
  · have hne : dp ≠ ".dockerignore" := by
      intro he
      rw [he] at hi
      exact absurd hi (by decide)
    simpa using hne

/-- C3 witness: a concrete successful resolution with an absolute
Dockerfile path; the theorem yields sortedness, dedup and the membership of
the absolute path. -/
theorem c3_witness :
    (["/ws/Dockerfile"] : List String).Sorted (· ≤ ·) ∧
      (["/ws/Dockerfile"] : List String).Nodup ∧
      (isAbsP "/ws/Dockerfile" = true → "/ws/Dockerfile" ∈ ["/ws/Dockerfile"]) :=
  c3_sorted_nodup_absolute
    (show GetDependencies retrieveFail envW "/ws" "/ws/Dockerfile" (fun _ => none)
        = .ok ["/ws/Dockerfile"] from rfl)

/-- C3 counterexample: invoked with the absolute dockerfile path
`/ws/Dockerfile`, the successful result contains that absolute path — the
claim that every element is workspace-relative (absolute inputs normalized
to relative before insertion) is false on the code. -/
theorem c3_counterexample :
    GetDependencies retrieveFail envW "/ws" "/ws/Dockerfile" (fun _ => none)
        = .ok ["/ws/Dockerfile"] ∧ isAbsP "/ws/Dockerfile" = true := by
  exact ⟨rfl, by decide⟩

/-! ## Claims C4 and C10: path expansion -/

theorem relAll_ok {env : Env} {ws : String} (hrel : ∀ f, env.rel ws f ≠ none) :
    ∀ (fs acc : List String), ∃ out, relAll env ws acc fs = .ok out := by
  intro fs
  induction fs with
  | nil => exact fun acc => ⟨acc, rfl⟩
  | cons f fs ih =>
    intro acc
    cases hr : env.rel ws f with
    | none => exact absurd hr (hrel f)
    | some r =>
      obtain ⟨out, hout⟩ := ih (insertSet acc r)
      refine ⟨out, ?_⟩
      unfold relAll
      rw [hr]
      exact hout

theorem processGroup_cons_ok {env : Env} {ws : String}
    {st st2 : List String × Bool} {p : String} {ps : List String}
    (hpt : processToken env ws st p = .ok st2) :
    processGroup env ws st (p :: ps) = processGroup env ws st2 ps := by
  conv_lhs => unfold processGroup
  rw [hpt]

/-- With no invalid glob pattern in the group and a total `filepath.Rel`,
the token loop never fails and its match flag records exactly whether some
token matched a file. -/
theorem processGroup_ok {env : Env} {ws : String}
    (hrel : ∀ f, env.rel ws f ≠ none) :
    ∀ (g : List String), (∀ p ∈ g, env.glob (joinP ws p) ≠ none) →
      ∀ st, ∃ s, processGroup env ws st g
        = .ok (s, st.2 || g.any (tokenMatches env ws)) := by
  intro g
  induction g with
  | nil => exact fun _ st => ⟨st.1, by simp [processGroup]⟩
  | cons p ps ih =>
    intro hglob st
    have hgp : env.glob (joinP ws p) ≠ none := hglob p (List.mem_cons_self p ps)
    have hps : ∀ q ∈ ps, env.glob (joinP ws q) ≠ none :=
      fun q hq => hglob q (List.mem_cons_of_mem p hq)
    cases hstat : env.statMode (joinP ws p) with
    | some m =>
      have htm : tokenMatches env ws p = true := by
        simp [tokenMatches, hstat]
      have hpt : processToken env ws st p = .ok (insertSet st.1 p, true) := by
        simp [processToken, hstat]
      obtain ⟨s, hs⟩ := ih hps (insertSet st.1 p, true)
      refine ⟨s, ?_⟩
      rw [processGroup_cons_ok hpt, hs]
      simp [htm]
    | none =>
      cases hglobv : env.glob (joinP ws p) with
      | none => exact absurd hglobv hgp
      | some fs =>
        cases fs with
        | nil =>
          have htm : tokenMatches env ws p = false := by
            simp [tokenMatches, hstat, hglobv]
          have hpt : processToken env ws st p = .ok st := by
            simp [processToken, hstat, hglobv]
          obtain ⟨s, hs⟩ := ih hps st
          refine ⟨s, ?_⟩
          rw [processGroup_cons_ok hpt, hs]
          simp [htm]
        | cons f fs2 =>
          have htm : tokenMatches env ws p = true := by
            simp [tokenMatches, hstat, hglobv]
          obtain ⟨out, hout⟩ := relAll_ok hrel (f :: fs2) st.1
          have hpt : processToken env ws st p = .ok (out, true) := by
            simp [processToken, hstat, hglobv, hout]
          obtain ⟨s, hs⟩ := ih hps (out, true)
          refine ⟨s, ?_⟩
          rw [processGroup_cons_ok hpt, hs]
          simp [htm]

/-- C4 (amended): tokens of a group are processed left to right, and a
token that neither exists literally nor globs successfully aborts the whole
expansion with an `invalid glob pattern` error even if another token of the
group matched (see the counterexample); in the absence of such tokens (no
invalid glob pattern, `filepath.Rel` total), a group none of whose tokens
matches any file fails with the error naming the group's patterns, and a
group with at least one matching token never errors. -/
theorem c4_group_matching {env : Env} {ws : String} {g acc : List String}
    (hglob : ∀ p ∈ g, env.glob (joinP ws p) ≠ none)
    (hrel : ∀ f, env.rel ws f ≠ none) :
    ((∀ p ∈ g, tokenMatches env ws p = false) →
        expandPaths env ws [g] acc = .error (mustMatchErr g)) ∧
    ((∃ p ∈ g, tokenMatches env ws p = true) →
        ∃ out, expandPaths env ws [g] acc = .ok out) := by
  obtain ⟨s, hs⟩ := processGroup_ok hrel g hglob (acc, false)
  constructor
  · intro hnone
    have hany : g.any (tokenMatches env ws) = false := by
      rw [Bool.eq_false_iff]
      intro hx
      obtain ⟨p, hp, htm⟩ := List.any_eq_true.mp hx
      rw [hnone p hp] at htm
      exact Bool.noConfusion htm
    unfold expandPaths
    rw [hs, hany]
    rfl
  · rintro ⟨p, hp, htm⟩
    have hany : g.any (tokenMatches env ws) = true :=
      List.any_eq_true.mpr ⟨p, hp, htm⟩
    refine ⟨s, ?_⟩
    unfold expandPaths
    rw [hs, hany]
    rfl

/-- C4 witness: in the benign world, a group with one literally existing
token expands without error. -/
theorem c4_witness :
    ∃ out, expandPaths envW "ws" [["a"]] [] = .ok out :=
  (@c4_group_matching envW "ws" ["a"] []
      (by decide) (fun f h => Option.noConfusion h)).2
    ⟨"a", by decide, by decide⟩

/-- World for the glob counterexamples: `ws/a` exists as a file, `ws/[bad`
is an invalid glob pattern, and every other glob matches nothing. -/
def envGlob : Env :=
  { envW with
    statMode := fun p => if p = "ws/a" then some FMode.regular else none
    glob := fun p => if p = "ws/[bad" then none else some [] }

/-- C4 counterexample: the group `["a", "[bad"]` has a token (`a`) that
matches a file, yet expansion errors: the invalid glob pattern `[bad`
aborts at parse.go 229-232 even though the group already matched. -/
theorem c4_counterexample :
    expandPaths envGlob "ws" [["a", "[bad"]] [] = .error "invalid glob pattern"
      ∧ tokenMatches envGlob "ws" "a" = true := by
  exact ⟨rfl, by decide⟩

/-- C10: a token that does not exist as a literal path and is a
syntactically invalid glob pattern aborts the whole expansion with the
`invalid glob pattern` error (parse.go 229-232) instead of being treated as
matching nothing — here the group even contains a later token that would
have satisfied it. -/
theorem c10_invalid_glob_aborts :
    expandPaths envGlob "ws" [["[bad", "a"]] [] = .error "invalid glob pattern"
      ∧ tokenMatches envGlob "ws" "a" = true := by
  exact ⟨rfl, by decide⟩

/-! ## Claim C5: scoped build-argument substitution -/

theorem substUntilRedecl_cons (key value : String) (n : Node) (rest : List Node) :
    substUntilRedecl key value (n :: rest)
      = if n.value == cmdArg && argKey n == key then n :: rest
        else expandNode key value n :: substUntilRedecl key value rest := rfl

theorem substUntilRedecl_noredecl {key value : String} {l : List Node}
    (h : ∀ n ∈ l, n.value ≠ cmdArg) :
    substUntilRedecl key value l = l.map (expandNode key value) := by
  induction l with
  | nil => rfl
  | cons n rest ih =>
    have hn : n.value ≠ cmdArg := h n (List.mem_cons_self n rest)
    rw [substUntilRedecl_cons, if_neg (by simp [hn]),
      ih (fun m hm => h m (List.mem_cons_of_mem n hm))]
    rfl

theorem substUntilRedecl_stops {key value : String} {B C : List Node} {d : Node}
    (hB : ∀ n ∈ B, n.value ≠ cmdArg)
    (hd : d.value = cmdArg) (hdk : argKey d = key) :
    substUntilRedecl key value (B ++ d :: C)
      = B.map (expandNode key value) ++ d :: C := by
  induction B with
  | nil =>
    rw [List.nil_append, substUntilRedecl_cons, if_pos (by simp [hd, hdk])]
    rfl
  | cons n rest ih =>
    have hn : n.value ≠ cmdArg := hB n (List.mem_cons_self n rest)
    rw [List.cons_append, substUntilRedecl_cons, if_neg (by simp [hn]),
      ih (fun m hm => hB m (List.mem_cons_of_mem n hm))]
    rfl

theorem expandBuildArgsAux_nil (evalT : String → Except String String)
    (bA : String → Option String) (fuel : Nat) :
    expandBuildArgsAux evalT bA fuel [] = .ok [] := by
  cases fuel <;> rfl

theorem expandBuildArgsAux_cons (evalT : String → Except String String)
    (bA : String → Option String) (fuel : Nat) (n : Node) (rest : List Node) :
    expandBuildArgsAux evalT bA (fuel + 1) (n :: rest)
      = if n.value == cmdArg then
          match argValueE evalT bA (argKey n) (splitEq (n.next.headD "")) with
          | .error _ => .error ("unable to get value for build arg: " ++ argKey n)
          | .ok v =>
            match expandBuildArgsAux evalT bA fuel (substUntilRedecl (argKey n) v rest) with
            | .error e => .error e
            | .ok rest2 => .ok (n :: rest2)
        else
          match expandBuildArgsAux evalT bA fuel rest with
          | .error e => .error e
          | .ok rest2 => .ok (n :: rest2) := rfl

/-- For an ARG node declaring `k` with inline default `v` and no
caller-supplied value, the resolved value is the inline default. -/
theorem argValueE_inline {evalT : String → Except String String}
    {bA : String → Option String} {k v : String}
    (hba : bA k = none) :
    argValueE evalT bA k [k, v] = .ok v := by
  simp [argValueE, hba, argDefault]

/-- Pushing a prefix of non-ARG instructions through the outer loop: they
are returned unchanged and processing continues on the suffix. -/
theorem expandBuildArgsAux_noarg_front (evalT : String → Except String String)
    (bA : String → Option String) :
    ∀ (A R : List Node), (∀ n ∈ A, n.value ≠ cmdArg) →
      expandBuildArgsAux evalT bA (A ++ R).length (A ++ R)
        = (expandBuildArgsAux evalT bA R.length R).map (fun r => A ++ r) := by
  intro A
  induction A with
  | nil =>
    intro R _
    simp only [List.nil_append]
    cases h : expandBuildArgsAux evalT bA R.length R <;> simp [Except.map, h]
  | cons n A ih =>
    intro R hA
    have hn : n.value ≠ cmdArg := hA n (List.mem_cons_self n A)
    have hrec := ih R (fun m hm => hA m (List.mem_cons_of_mem n hm))
    show expandBuildArgsAux evalT bA ((A ++ R).length + 1) (n :: (A ++ R))
      = (expandBuildArgsAux evalT bA R.length R).map (fun r => (n :: A) ++ r)
    rw [expandBuildArgsAux_cons, if_neg (by simp [hn]), hrec]
    cases h : expandBuildArgsAux evalT bA R.length R <;> simp [Except.map, h]

/-- A list with no ARG instructions passes through the outer loop
unchanged. -/
theorem expandBuildArgsAux_noarg (evalT : String → Except String String)
    (bA : String → Option String) {C : List Node}
    (hC : ∀ n ∈ C, n.value ≠ cmdArg) :
    expandBuildArgsAux evalT bA C.length C = .ok C := by
  have h := expandBuildArgsAux_noarg_front evalT bA C [] hC
  simpa [expandBuildArgsAux_nil, Except.map] using h

/-- One outer-loop step at an ARG node whose value resolves to `v`. -/
theorem expandBuildArgsAux_cons_argstep (evalT : String → Except String String)
    (bA : String → Option String) (fuel : Nat) {n : Node} {rest : List Node}
    {k v : String} (hn : n.value = cmdArg) (hka : argKey n = k)
    (hval : argValueE evalT bA k (splitEq (n.next.headD "")) = .ok v) :
    expandBuildArgsAux evalT bA (fuel + 1) (n :: rest)
      = match expandBuildArgsAux evalT bA fuel (substUntilRedecl k v rest) with
        | .error e => .error e
        | .ok rest2 => .ok (n :: rest2) := by
  rw [expandBuildArgsAux_cons, if_pos (by simp [hn]), hka, hval]

/-- C5: build-argument substitution is scoped.  For a sequence
`A ++ [d1] ++ B ++ [d2] ++ C` in which `d1` declares `k` with inline
default `v1`, `d2` redeclares the same `k` with inline default `v2`, the
key is not supplied by the caller, and no other instruction is an ARG
(also after substitution), the earlier binding is applied to every token of
exactly the instructions strictly between the declaration and the
redeclaration, the later binding to those after the redeclaration, and the
instructions substituted under the earlier binding are not changed again by
the redeclaration. -/
theorem c5_expandBuildArgs_scoped {evalT : String → Except String String}
    {bA : String → Option String} {A B C : List Node} {d1 d2 : Node}
    {k v1 v2 : String}
    (hA : ∀ n ∈ A, n.value ≠ cmdArg)
    (hB : ∀ n ∈ B, n.value ≠ cmdArg)
    (hB2 : ∀ n ∈ B, (expandNode k v1 n).value ≠ cmdArg)
    (hC : ∀ n ∈ C, n.value ≠ cmdArg)
    (hC2 : ∀ n ∈ C, (expandNode k v2 n).value ≠ cmdArg)
    (hd1 : d1.value = cmdArg) (hd2 : d2.value = cmdArg)
    (hk1 : splitEq (d1.next.headD "") = [k, v1])
    (hk2 : splitEq (d2.next.headD "") = [k, v2])
    (hba : bA k = none) :
    expandBuildArgs evalT bA (A ++ d1 :: (B ++ d2 :: C))
      = .ok (A ++ d1 :: (B.map (expandNode k v1)
          ++ d2 :: C.map (expandNode k v2))) := by
  have hk1a : argKey d1 = k := by unfold argKey; rw [hk1]; rfl
  have hk2a : argKey d2 = k := by unfold argKey; rw [hk2]; rfl
  have hB2m : ∀ n ∈ B.map (expandNode k v1), n.value ≠ cmdArg := by
    intro n hn
    obtain ⟨m, hm, rfl⟩ := List.mem_map.mp hn
    exact hB2 m hm
  have hC2m : ∀ n ∈ C.map (expandNode k v2), n.value ≠ cmdArg := by
    intro n hn
    obtain ⟨m, hm, rfl⟩ := List.mem_map.mp hn
    exact hC2 m hm
  have step2 : expandBuildArgsAux evalT bA (d2 :: C).length (d2 :: C)
      = .ok (d2 :: C.map (expandNode k v2)) := by
    show expandBuildArgsAux evalT bA (C.length + 1) (d2 :: C) = _
    rw [expandBuildArgsAux_cons_argstep evalT bA C.length hd2 hk2a
        (by rw [hk2]; exact argValueE_inline hba)]
    rw [substUntilRedecl_noredecl hC]
    have hl : (C.map (expandNode k v2)).length = C.length := List.length_map _ _
    rw [← hl, expandBuildArgsAux_noarg evalT bA hC2m]
  have step1 : expandBuildArgsAux evalT bA (d1 :: (B ++ d2 :: C)).length
      (d1 :: (B ++ d2 :: C))
      = .ok (d1 :: (B.map (expandNode k v1) ++ d2 :: C.map (expandNode k v2))) := by
    show expandBuildArgsAux evalT bA ((B ++ d2 :: C).length + 1)
        (d1 :: (B ++ d2 :: C)) = _
    rw [expandBuildArgsAux_cons_argstep evalT bA (B ++ d2 :: C).length hd1 hk1a
        (by rw [hk1]; exact argValueE_inline hba)]
    rw [substUntilRedecl_stops hB hd2 hk2a]
    have hl : (B.map (expandNode k v1) ++ d2 :: C).length = (B ++ d2 :: C).length := by
      simp
    rw [← hl, expandBuildArgsAux_noarg_front evalT bA (B.map (expandNode k v1))
        (d2 :: C) hB2m, step2]
    rfl
  unfold expandBuildArgs
  rw [expandBuildArgsAux_noarg_front evalT bA A (d1 :: (B ++ d2 :: C)) hA, step1]
  rfl

/-- C5 witness: a concrete Dockerfile skeleton
`COPY $IMG a; ARG IMG=one; COPY $IMG b; ARG IMG=two; COPY $IMG c`
substitutes `one` strictly between the two declarations and `two` after the
redeclaration, leaving the earlier substitution untouched. -/
theorem c5_witness :
    expandBuildArgs (fun t => .ok t) (fun _ => none)
        ([Node.mk "copy" ["$IMG", "a"] []] ++ Node.mk "arg" ["IMG=one"] []
          :: ([Node.mk "copy" ["$IMG", "b"] []] ++ Node.mk "arg" ["IMG=two"] []
            :: [Node.mk "copy" ["$IMG", "c"] []]))
      = .ok ([Node.mk "copy" ["$IMG", "a"] []] ++ Node.mk "arg" ["IMG=one"] []
          :: ([Node.mk "copy" ["$IMG", "b"] []].map (expandNode "IMG" "one")
            ++ Node.mk "arg" ["IMG=two"] []
            :: [Node.mk "copy" ["$IMG", "c"] []].map (expandNode "IMG" "two"))) :=
  c5_expandBuildArgs_scoped
    (by decide) (by decide) (by decide) (by decide) (by decide)
    (by decide) (by decide) (by decide) (by decide) rfl

/-! ## Claims C7 and C8: copy/add token processing -/

theorem processCopyAux_cons2 (pw : String → List (String × String) → Except String String)
    (envs : List (String × String)) (flags : List String)
    (a b : String) (rest : List String) :
    processCopyAux pw envs flags (a :: b :: rest)
      = if strStartsWith b "#" then .ok []
        else
          match pw a envs with
          | .error e => .error e
          | .ok src =>
            if hasMultiStageFlag flags then .ok []
            else
              match processCopyAux pw envs [] (b :: rest) with
              | .error e => .error e
              | .ok tail =>
                if !(strStartsWith src "http://") && !(strStartsWith src "https://") then
                  .ok (src :: tail)
                else
                  .ok tail := rfl

/-- Only the truth of `hasMultiStageFlag` on the instruction's flags is
observed by the token loop. -/
theorem processCopyAux_flags_eq {pw : String → List (String × String) → Except String String}
    {envs : List (String × String)} {f1 f2 : List String}
    (h : hasMultiStageFlag f1 = hasMultiStageFlag f2) :
    ∀ l, processCopyAux pw envs f1 l = processCopyAux pw envs f2 l
  | [] => rfl
  | [_] => rfl
  | a :: b :: rest => by
    rw [processCopyAux_cons2, processCopyAux_cons2, h]

/-- When shell-word expansion always succeeds, the token loop never
fails. -/
theorem processCopyAux_ok {pw : String → List (String × String) → Except String String}
    {envs : List (String × String)}
    (hpw : ∀ t, ∃ s, pw t envs = .ok s) :
    ∀ (flags l : List String), ∃ out, processCopyAux pw envs flags l = .ok out := by
  intro flags l
  induction l generalizing flags with
  | nil => exact ⟨[], rfl⟩
  | cons a rest ih =>
    cases rest with
    | nil => exact ⟨[], rfl⟩
    | cons b rest2 =>
      cases hb : strStartsWith b "#" with
      | true => exact ⟨[], by rw [processCopyAux_cons2, if_pos hb]⟩
      | false =>
        obtain ⟨s, hs⟩ := hpw a
        obtain ⟨tail, ht⟩ := ih []
        cases hms : hasMultiStageFlag flags with
        | true => exact ⟨[], by simp [processCopyAux_cons2, hb, hs, hms]⟩
        | false =>
          cases hhttp : (!(strStartsWith s "http://") && !(strStartsWith s "https://")) with
          | true =>
            exact ⟨s :: tail, by simp [processCopyAux_cons2, hb, hs, hms, ht, hhttp]⟩
          | false =>
            exact ⟨tail, by simp [processCopyAux_cons2, hb, hs, hms, ht, hhttp]⟩

/-- C7 (amended): a copy/add instruction carrying a `--from=` flag
contributes zero dependencies regardless of its token content, and its
processing does not error, provided the shell-word expansion of the first
source token succeeds — the expansion runs before the flag check
(parse.go 408-416), so its failure still aborts (see the
counterexample). -/
theorem c7_multistage_zero_deps {pw : String → List (String × String) → Except String String}
    {envs : List (String × String)} {n : Node}
    (hms : hasMultiStageFlag n.flags = true)
    (hpw : ∀ a b rest, n.next = a :: b :: rest → strStartsWith b "#" = false →
      ∃ s, pw a envs = .ok s) :
    processCopy pw n envs = .ok [] := by
  unfold processCopy
  cases hn : n.next with
  | nil => rfl
  | cons a rest =>
    cases rest with
    | nil => rfl
    | cons b rest2 =>
      cases hb : strStartsWith b "#" with
      | true => rw [processCopyAux_cons2, if_pos hb]
      | false =>
        obtain ⟨s, hs⟩ := hpw a b rest2 hn hb
        simp [processCopyAux_cons2, hb, hs, hms]

/-- C7 witness: a cross-stage copy with two tokens and a succeeding lexer
contributes nothing. -/
theorem c7_witness :
    processCopy (fun t _ => .ok t) (Node.mk "copy" ["a", "b"] ["--from=builder"]) []
      = .ok [] :=
  c7_multistage_zero_deps (by decide)
    (fun a _ _ _ _ => ⟨a, rfl⟩)

/-- C7 counterexample: the same cross-stage copy instruction errors when
the shell-word expansion of its first token fails, because parse.go
processes the word (line 408) before checking the `--from=` flag
(line 414) — so the claim's `regardless of its token content, without
error` is false. -/
theorem c7_counterexample :
    processCopy (fun _ _ => .error "processing word")
        (Node.mk "copy" ["a", "b"] ["--from=builder"]) []
      = .error "processing word"
    ∧ hasMultiStageFlag ["--from=builder"] = true := by
  exact ⟨rfl, by decide⟩

theorem except_match_id {α β : Type} (x : Except α β) :
    (match x with | .error e => Except.error e | .ok t => Except.ok t) = x := by
  cases x <;> rfl

/-- Dropping a source token whose expansion is a remote URL does not change
the extracted dependencies. -/
theorem processCopyAux_skip_http {pw : String → List (String × String) → Except String String}
    {envs : List (String × String)} {a s : String} {post : List String}
    (hpw : ∀ t, ∃ s2, pw t envs = .ok s2)
    (hs : pw a envs = .ok s)
    (hhttp : strStartsWith s "http://" = true ∨ strStartsWith s "https://" = true)
    (hna : strStartsWith a "#" = false)
    (hnp : strStartsWith (post.headD "") "#" = false)
    (hpost : post ≠ []) :
    ∀ (pre flags : List String), hasMultiStageFlag flags = false →
      processCopyAux pw envs flags (pre ++ a :: post)
        = processCopyAux pw envs flags (pre ++ post) := by
  have hcond : (!(strStartsWith s "http://") && !(strStartsWith s "https://")) = false := by
    rcases hhttp with h1 | h1 <;> simp [h1]
  intro pre
  induction pre with
  | nil =>
    intro flags hms
    cases post with
    | nil => exact absurd rfl hpost
    | cons h t =>
      have hnp2 : strStartsWith h "#" = false := by simpa using hnp
      have hflag : processCopyAux pw envs flags (h :: t)
          = processCopyAux pw envs [] (h :: t) :=
        processCopyAux_flags_eq (by rw [hms]; rfl) (h :: t)
      obtain ⟨tail, ht⟩ := processCopyAux_ok hpw [] (h :: t)
      simp only [List.nil_append]
      rw [processCopyAux_cons2]
      simp [hnp2, hs, hms, hcond, ht, hflag]
  | cons p pre2 ih =>
    intro flags hms
    have hms0 : hasMultiStageFlag ([] : List String) = false := rfl
    obtain ⟨sp, hsp⟩ := hpw p
    cases pre2 with
    | nil =>
      simp only [List.nil_append, List.cons_append] at ih ⊢
      cases post with
      | nil => exact absurd rfl hpost
      | cons h t =>
        have hnp2 : strStartsWith h "#" = false := by simpa using hnp
        have hihe := ih [] hms0
        rw [processCopyAux_cons2 pw envs flags p a (h :: t),
          processCopyAux_cons2 pw envs flags p h t]
        simp [hna, hnp2, hsp, hms, hihe]
    | cons q pre3 =>
      simp only [List.cons_append] at ih ⊢
      have hihe := ih [] hms0
      rw [processCopyAux_cons2 pw envs flags p q (pre3 ++ a :: post),
        processCopyAux_cons2 pw envs flags p q (pre3 ++ post)]
      cases hq : strStartsWith q "#" with
      | true => rfl
      | false => simp [hsp, hms, hihe]

/-- C8: a source token whose shell expansion begins with `http://` or
`https://` contributes zero dependencies — removing it from the
instruction's token chain yields the identical extraction result — and
processing does not error (parse.go 417-421 skips such tokens).  The
hypotheses pin the token to a genuine source position: some token follows
it (the last token is the destination), no comment token interferes, the
instruction is not a cross-stage copy and shell expansion succeeds. -/
theorem c8_http_skipped {pw : String → List (String × String) → Except String String}
    {envs : List (String × String)} {n : Node} {a s : String}
    {pre post : List String}
    (hpw : ∀ t, ∃ s2, pw t envs = .ok s2)
    (hnext : n.next = pre ++ a :: post) (hpost : post ≠ [])
    (hna : strStartsWith a "#" = false)
    (hnp : strStartsWith (post.headD "") "#" = false)
    (hms : hasMultiStageFlag n.flags = false)
    (hs : pw a envs = .ok s)
    (hhttp : strStartsWith s "http://" = true ∨ strStartsWith s "https://" = true) :
    processCopy pw n envs = processCopy pw { n with next := pre ++ post } envs
      ∧ ∃ out, processCopy pw n envs = .ok out := by
  constructor
  · unfold processCopy
    rw [hnext]
    exact processCopyAux_skip_http hpw hs hhttp hna hnp hpost pre n.flags hms
  · unfold processCopy
    rw [hnext]
    exact processCopyAux_ok hpw n.flags (pre ++ a :: post)

/-- C8 witness: `COPY http://x.tgz dst` extracts the same (empty)
dependency list as `COPY dst`, without error. -/
theorem c8_witness :
    processCopy (fun t _ => .ok t) (Node.mk "copy" ["http://x.tgz", "dst"] []) []
        = processCopy (fun t _ => .ok t) (Node.mk "copy" ["dst"] []) []
      ∧ ∃ out, processCopy (fun t _ => .ok t)
          (Node.mk "copy" ["http://x.tgz", "dst"] []) [] = .ok out :=
  c8_http_skipped (fun t => ⟨t, rfl⟩)
    (show (Node.mk "copy" ["http://x.tgz", "dst"] []).next
        = [] ++ "http://x.tgz" :: ["dst"] from rfl)
    (by decide) (by decide) (by decide) (by decide) rfl (Or.inl (by decide))

/-! ## Claims C6 and C9: base-image trigger resolution -/

theorem collectOnbuild_cons (retrieve : String → Except String ImgCfg)
    (stages : List String) (f : FromI) (rest : List FromI) :
    collectOnbuild retrieve stages (f :: rest)
      = if strToLower f.image == "scratch" then
          collectOnbuild retrieve (strToLower f.alias2 :: stages) rest
        else if strToLower f.image ∈ strToLower f.alias2 :: stages then
          collectOnbuild retrieve (strToLower f.alias2 :: stages) rest
        else
          match retrieve f.image with
          | .error _ =>
            ((collectOnbuild retrieve (strToLower f.alias2 :: stages) rest).1,
              f.image :: (collectOnbuild retrieve (strToLower f.alias2 :: stages) rest).2)
          | .ok img =>
            (if img.onBuild.length > 0 then
                img.onBuild ++ (collectOnbuild retrieve (strToLower f.alias2 :: stages) rest).1
              else (collectOnbuild retrieve (strToLower f.alias2 :: stages) rest).1,
              f.image :: (collectOnbuild retrieve (strToLower f.alias2 :: stages) rest).2) := rfl

/-- Characterization of the recorded lookups: every image that is looked up
is not `scratch` (case-insensitively), is not in the incoming alias set,
and sits at a stage whose alias set up to and including itself does not
contain it. -/
theorem collectOnbuild_lookups_spec {retrieve : String → Except String ImgCfg}
    {img : String} :
    ∀ (fs : List FromI) (stages : List String),
      img ∈ (collectOnbuild retrieve stages fs).2 →
      strToLower img ≠ "scratch" ∧ strToLower img ∉ stages ∧
        ∃ i f, fs[i]? = some f ∧ f.image = img ∧
          strToLower img ∉ (fs.take (i + 1)).map (fun x => strToLower x.alias2) := by
  intro fs
  induction fs with
  | nil =>
    intro stages h
    simp [collectOnbuild] at h
  | cons f rest ih =>
    intro stages h
    rw [collectOnbuild_cons] at h
    have hlift : img ∈ (collectOnbuild retrieve (strToLower f.alias2 :: stages) rest).2 →
        strToLower img ≠ "scratch" ∧ strToLower img ∉ stages ∧
          ∃ i g, (f :: rest)[i]? = some g ∧ g.image = img ∧
            strToLower img ∉ ((f :: rest).take (i + 1)).map (fun x => strToLower x.alias2) := by
      intro hmem
      obtain ⟨h1, h2, i, g, hidx, himg, halias⟩ := ih _ hmem
      refine ⟨h1, fun hm => h2 (List.mem_cons_of_mem _ hm), i + 1, g,
        by simpa using hidx, himg, ?_⟩
      rw [List.take_succ_cons, List.map_cons]
      intro hmem2
      rcases List.mem_cons.mp hmem2 with heq | hmem3
      · exact h2 (heq ▸ List.mem_cons_self _ _)
      · exact halias hmem3
    split at h
    · exact hlift h
    · split at h
      · exact hlift h
      · next hscr hmem =>
        cases hr : retrieve f.image with
        | error e2 =>
          rw [hr] at h
          rcases List.mem_cons.mp h with rfl | h2
          · refine ⟨by simpa using hscr, fun hm => hmem (List.mem_cons_of_mem _ hm),
              0, f, by simp, rfl, ?_⟩
            simp only [List.take_succ_cons, List.take_zero, List.map_cons, List.map_nil]
            intro hmem2
            rcases List.mem_cons.mp hmem2 with heq | hmem3
            · exact hmem (heq ▸ List.mem_cons_self _ _)
            · exact List.not_mem_nil _ hmem3
          · exact hlift h2
        | ok cfg =>
          rw [hr] at h
          rcases List.mem_cons.mp h with rfl | h2
          · refine ⟨by simpa using hscr, fun hm => hmem (List.mem_cons_of_mem _ hm),
              0, f, by simp, rfl, ?_⟩
            simp only [List.take_succ_cons, List.take_zero, List.map_cons, List.map_nil]
            intro hmem2
            rcases List.mem_cons.mp hmem2 with heq | hmem3
            · exact hmem (heq ▸ List.mem_cons_self _ _)
            · exact List.not_mem_nil _ hmem3
          · exact hlift h2

/-- C6: an external image-metadata lookup is performed only for base images
that are neither the literal `scratch` (case-insensitively) nor an alias of
a stage defined at or before the looked-up stage (case-insensitively) — in
particular never for `scratch` and never for previously-defined stage
aliases. -/
theorem c6_lookups_only_external {retrieve : String → Except String ImgCfg}
    {nodes : List Node} {img : String}
    (h : img ∈ onbuildLookups retrieve nodes) :
    strToLower img ≠ "scratch" ∧
      ∃ i f, (fromInstructions nodes)[i]? = some f ∧ f.image = img ∧
        strToLower img ∉ ((fromInstructions nodes).take (i + 1)).map
          (fun x => strToLower x.alias2) := by
  obtain ⟨h1, h2, hrest⟩ := collectOnbuild_lookups_spec (fromInstructions nodes) [] h
  exact ⟨h1, hrest⟩

/-- C6 witness: a single `FROM alpine` stage triggers a lookup of `alpine`,
which the theorem certifies as neither scratch nor an alias. -/
theorem c6_witness :
    strToLower "alpine" ≠ "scratch" ∧
      ∃ i f, (fromInstructions [Node.mk "from" ["alpine"] []])[i]? = some f
        ∧ f.image = "alpine" ∧
        strToLower "alpine" ∉
          ((fromInstructions [Node.mk "from" ["alpine"] []]).take (i + 1)).map
            (fun x => strToLower x.alias2) :=
  @c6_lookups_only_external retrieveFail [Node.mk "from" ["alpine"] []] "alpine"
    (by decide)

/-- Replacing a failing lookup by one that succeeds with an empty ONBUILD
list changes nothing: the failing stage contributes no trigger
instructions and the rest of the fold is unaffected. -/
theorem collectOnbuild_retrieve_irrelevant {r1 r2 : String → Except String ImgCfg}
    {img0 e : String}
    (h0 : r1 img0 = .error e) (h1 : r2 img0 = .ok (ImgCfg.mk []))
    (hagree : ∀ s2, s2 ≠ img0 → r1 s2 = r2 s2) :
    ∀ (fs : List FromI) (stages : List String),
      collectOnbuild r1 stages fs = collectOnbuild r2 stages fs := by
  intro fs
  induction fs with
  | nil => intro stages; rfl
  | cons f rest ih =>
    intro stages
    rw [collectOnbuild_cons, collectOnbuild_cons]
    split
    · exact ih _
    · split
      · exact ih _
      · by_cases hf : f.image = img0
        · rw [hf, h0, h1]
          simp [ih _]
        · rw [hagree f.image hf]
          cases hr : r2 f.image with
          | error e2 => simp [ih _]
          | ok cfg => simp [ih _]

/-- C9: a failing external image lookup is not fatal to the resolution —
`GetDependencies` behaves exactly as if the lookup had succeeded with an
empty trigger list: the failing stage contributes no trigger instructions,
the remaining stages are still processed, and the overall result (success
or failure, and the dependency list) is unchanged. -/
theorem c9_lookup_failure_nonfatal {env : Env}
    {r1 r2 : String → Except String ImgCfg} {img0 e : String}
    {ws dp : String} {bA : String → Option String}
    (h0 : r1 img0 = .error e) (h1 : r2 img0 = .ok (ImgCfg.mk []))
    (hagree : ∀ s2, s2 ≠ img0 → r1 s2 = r2 s2) :
    GetDependencies r1 env ws dp bA = GetDependencies r2 env ws dp bA := by
  have hco : ∀ fs stages, collectOnbuild r1 stages fs = collectOnbuild r2 stages fs :=
    fun fs stages => collectOnbuild_retrieve_irrelevant h0 h1 hagree fs stages
  unfold GetDependencies readDockerfile onbuildInstructions
  simp only [hco]

/-- A lookup that always fails with a network error. -/
def retrieveDown : String → Except String ImgCfg :=
  fun _ => .error "connection refused"

/-- A lookup that knows `alpine` (with no ONBUILD triggers) and fails on
everything else. -/
def retrieveUp : String → Except String ImgCfg :=
  fun s => if s = "alpine" then .ok (ImgCfg.mk []) else .error "connection refused"

/-- C9 witness: with the lookup failing on `alpine`, the resolution result
equals the one where the `alpine` lookup succeeds with no triggers. -/
theorem c9_witness :
    GetDependencies retrieveDown envW "ws" "Dockerfile" (fun _ => none)
      = GetDependencies retrieveUp envW "ws" "Dockerfile" (fun _ => none) :=
  c9_lookup_failure_nonfatal
    (show retrieveDown "alpine" = .error "connection refused" from rfl)
    (show retrieveUp "alpine" = .ok (ImgCfg.mk []) from rfl)
    (fun s2 hs2 => by simp [retrieveDown, retrieveUp, hs2])

end SkaffoldDocker
